import Mathlib

/-
Shallow embedding of the OBJ mesh loader (src/src/lib.rs).

Modelling conventions:
* The scalar float type `F` of the math library is modelled as `ℚ`; the inputs
  exercised by the specification (small integer literals) are exactly
  representable, so no rounding behaviour is involved.
* The integer type `I` is modelled as `Int` (pool sizes stay far below the
  machine-overflow range; the `as usize` cast in `add_vertex`, where wrap-around
  does matter for negative values, is modelled explicitly by `asUsize`).
* The wrapper types `P`, `N`, `F3` are all 3-tuples of `ℚ`; `F2` is a pair.
* The external transform type `T` of the math library is modelled abstractly as
  a pair of functions, one applied to points (`to_world * P::from(..)`) and one
  applied to normals (`to_world * N::from(..)`).
* `HashMap<Vertex, I>` is modelled as an association list with
  replace-or-append insertion; `len` is the list length and `get` the first
  matching entry.  The loader never iterates the map, so this captures the
  HashMap semantics it relies on.
* Iterators over tokens are modelled by explicit list-state passing: a parse
  step returns its result together with the remaining tokens.
* Rust `Result<T, String>` is `Except String`.  Computations that can also
  panic (the unchecked slice indexing `self.tmp_data.p[v.p as usize]` in
  `add_vertex`) return `Outcome`, whose `panicked` constructor marks a panic.
* A line-readable input stream is modelled as a `List String` of lines.
-/

/-- Two-component float tuple (`F2` of the math library). -/
abbrev F2 := ℚ × ℚ

/-- Three-component float tuple (`F3`/`P`/`N` of the math library). -/
abbrev F3 := ℚ × ℚ × ℚ

/-- Embeds `pub type Face = A3<I>;` — a triple of welded vertex indices. -/
abbrev Face := Int × Int × Int

/-- The external transform type `T`: how `*` acts on points and on normals. -/
structure T where
  onPoint : F3 → F3
  onNormal : F3 → F3

/-- The identity transform. -/
def idT : T := { onPoint := id, onNormal := id }

/-- Embeds `struct MeshData { p: Vec<P>, n: Vec<N>, uv: Vec<F2> }`. -/
structure MeshData where
  p : List F3
  n : List F3
  uv : List F2
deriving DecidableEq

/-- The empty `MeshData` (Rust `Default`). -/
def MeshData.empty : MeshData := { p := [], n := [], uv := [] }

/-- Embeds `struct Vertex { p: I, t: I, n: I }` — the welding key. -/
structure Vertex where
  p : Int
  t : Int
  n : Int
deriving DecidableEq

/-- Embeds `struct ObjLoader` — the whole per-load state. -/
structure ObjLoader where
  tmp_data : MeshData
  obj_data : MeshData
  faces : List Face
  vertex_map : List (Vertex × Int)
  to_world : T

/-- Result of a computation that can succeed, fail with a Rust `Err`, or
panic (abort without returning a value to the caller). -/
inductive Outcome (α : Type) where
  | ok : α → Outcome α
  | err : String → Outcome α
  | panicked : Outcome α
deriving DecidableEq

/-- Lift a Rust `Result` into `Outcome`. -/
def outcomeOfRes {α : Type} : Except String α → Outcome α
  | .ok a => .ok a
  | .error e => .err e

/-- Models `HashMap::get` on the association-list model: first matching entry. -/
def hmGet (m : List (Vertex × Int)) (k : Vertex) : Option Int :=
  match m with
  | [] => none
  | (k2, i) :: rest => if k2 = k then some i else hmGet rest k

/-- Models `HashMap::insert` on the association-list model: replace the existing
entry for the key, or append a new one. -/
def hmInsert (m : List (Vertex × Int)) (k : Vertex) (i : Int) : List (Vertex × Int) :=
  match m with
  | [] => [(k, i)]
  | (k2, j) :: rest => if k2 = k then (k, i) :: rest else (k2, j) :: hmInsert rest k i

/-- Rust `v as usize` for `v : I`, with sign-extending wrap-around modulo
`2 ^ 64`: negative indices become huge and miss every real vector. -/
def asUsize (i : Int) : Nat := (i % (2 ^ 64 : Int)).toNat

/-- Splits a character list at every separator (predicate `p`), keeping empty
chunks — the semantics of Rust `str::split`. -/
def splitPred (p : Char → Bool) : List Char → List (List Char)
  | [] => [[]]
  | c :: rest =>
    match splitPred p rest with
    | [] => if p c then [[], []] else [[c]]
    | g :: gs => if p c then [] :: g :: gs else (c :: g) :: gs

/-- Rust `str::split` on a string, via `splitPred`. -/
def strSplit (s : String) (p : Char → Bool) : List String :=
  (splitPred p s.data).map String.mk

/-- Rust `str::split_whitespace`: split on whitespace runs, dropping empty
tokens. -/
def splitWS (s : String) : List String :=
  (strSplit s Char.isWhitespace).filter (fun t => t ≠ "")

/-- Digit run to number; `none` when empty or any non-digit appears.  Models
the digit body of Rust integer parsing (overflow is not modelled: the pools
exercised stay far below `I`'s range). -/
def digitsToNat (cs : List Char) : Option Nat :=
  if cs ≠ [] ∧ cs.all Char.isDigit then
    some (cs.foldl (fun a c => a * 10 + (c.toNat - 48)) 0)
  else none

/-- Rust `str::parse::<I>()`: optional sign followed by at least one digit. -/
def parseIntTok (s : String) : Option Int :=
  match s.data with
  | '+' :: cs => (digitsToNat cs).map Int.ofNat
  | '-' :: cs => (digitsToNat cs).map (fun v => -(v : Int))
  | cs => (digitsToNat cs).map Int.ofNat

/-- Rust `str::parse::<F>()` on the decimal-numeral fragment the loader
exercises: optional sign, integer digits, optional fractional digits. -/
def parseRatTok (s : String) : Option ℚ :=
  let signed : List Char → Option ℚ := fun cs =>
    match cs.splitOn '.' with
    | [ds] => (digitsToNat ds).map (fun v => (v : ℚ))
    | [ds, fs] =>
      if ds ++ fs = [] then none
      else if (ds ++ fs).all Char.isDigit then
        some ((((ds.foldl (fun a c => a * 10 + (c.toNat - 48)) 0 : Nat) : ℚ)) +
          ((fs.foldl (fun a c => a * 10 + (c.toNat - 48)) 0 : Nat) : ℚ) / ((10 : ℚ) ^ fs.length))
      else none
    | _ => none
  match s.data with
  | '+' :: cs => signed cs
  | '-' :: cs => (signed cs).map (fun q => -q)
  | cs => signed cs

/-- Embeds `fn parse<S>(tokens) -> Res<S>` at `S = I`: take the next token (error
`missing scalar` when exhausted) and parse it (error `malformed scalar`).
Returns the remaining tokens alongside, modelling iterator consumption. -/
def parseI (tokens : List String) : Except String Int × List String :=
  match tokens with
  | [] => (.error ("missing scalar"), [])
  | t :: rest =>
    match parseIntTok t with
    | some i => (.ok i, rest)
    | none => (.error ("malformed scalar"), rest)

/-- Embeds `fn parse<S>(tokens) -> Res<S>` at `S = F`. -/
def parseF (tokens : List String) : Except String ℚ × List String :=
  match tokens with
  | [] => (.error ("missing scalar"), [])
  | t :: rest =>
    match parseRatTok t with
    | some q => (.ok q, rest)
    | none => (.error ("malformed scalar"), rest)

/-- Embeds `fn parse_index(tkns, n)`: parse one integer token and resolve it against
pool length `n` — 1-based when positive, relative from the end otherwise. -/
def parse_index (tkns : List String) (n : Nat) : Except String Int × List String :=
  match parseI tkns with
  | (r, rest) => (r.map (fun i => if i > 0 then i - 1 else i + (n : Int)), rest)

/-- Embeds `fn parse_f3(tokens)`: three scalars into an `F3`. -/
def parse_f3 (tokens : List String) : Except String F3 :=
  match parseF tokens with
  | (.error e, _) => .error e
  | (.ok a, t1) =>
    match parseF t1 with
    | (.error e, _) => .error e
    | (.ok b, t2) =>
      match parseF t2 with
      | (.error e, _) => .error e
      | (.ok c, _) => .ok (a, b, c)

/-- Embeds `fn parse_f2(tokens)`: two scalars into an `F2`. -/
def parse_f2 (tokens : List String) : Except String F2 :=
  match parseF tokens with
  | (.error e, _) => .error e
  | (.ok a, t1) =>
    match parseF t1 with
    | (.error e, _) => .error e
    | (.ok b, _) => .ok (a, b)

/-- Embeds `ObjLoader::parse_vertex`: split the corner token on `/`; the position
field is mandatory (its error is wrapped), the `t`/`n` fields fall back to
the sentinel `-1` via `unwrap_or(-1)`. -/
def parse_vertex (ld : ObjLoader) (token : String) : Except String Vertex :=
  match parse_index (strSplit token (fun c => c = '/')) ld.tmp_data.p.length with
  | (.error e, _) => .error ("index for position is required: " ++ e)
  | (.ok pv, tks1) =>
    match parse_index tks1 ld.tmp_data.uv.length with
    | (rt, tks2) =>
      match parse_index tks2 ld.tmp_data.n.length with
      | (rn, _) =>
        .ok { p := pv,
              t := match rt with | .ok i => i | .error _ => -1,
              n := match rn with | .ok i => i | .error _ => -1 }

/-- Embeds the optional-field pattern of `ObjLoader::parse_vertex`,
`parse_index(&mut tokens, len).unwrap_or(-1)`: the resolved index, or the
sentinel `-1` when the field is missing or malformed; the remaining field
tokens are returned alongside. -/
def optField (tkns : List String) (L : Nat) : Int × List String :=
  match parse_index tkns L with
  | (.ok i, rest) => (i, rest)
  | (.error _, rest) => (-1, rest)

/-- Embeds `ObjLoader::add_vertex`: copy the referenced position (always) and the
referenced uv/normal (when not the sentinel) into the output pools, then
assign the map's size as the new welded index and insert the key.  `none`
models the panic of an out-of-range unchecked index. -/
def add_vertex (ld : ObjLoader) (v : Vertex) : Option (Int × ObjLoader) :=
  match ld.tmp_data.p.get? (asUsize v.p) with
  | none => none
  | some pos =>
    let ld1 := { ld with obj_data := { ld.obj_data with p := ld.obj_data.p ++ [pos] } }
    match (if v.t ≠ -1 then
             (ld1.tmp_data.uv.get? (asUsize v.t)).map (fun uv =>
               { ld1 with obj_data := { ld1.obj_data with uv := ld1.obj_data.uv ++ [uv] } })
           else some ld1) with
    | none => none
    | some ld2 =>
      match (if v.n ≠ -1 then
               (ld2.tmp_data.n.get? (asUsize v.n)).map (fun nn =>
                 { ld2 with obj_data := { ld2.obj_data with n := ld2.obj_data.n ++ [nn] } })
             else some ld2) with
      | none => none
      | some ld3 =>
        some ((ld3.vertex_map.length : Int),
              { ld3 with vertex_map := hmInsert ld3.vertex_map v (ld3.vertex_map.length : Int) })

/-- The corner-welding loop inside `ObjLoader::add_face`: for each corner
token, parse it to a key, reuse the mapped index when present, otherwise
`add_vertex`; collect the welded indices in order.  Short-circuits on the
first error, as driven `Result` collection does. -/
def weldCorners (ld : ObjLoader) (tokens : List String) : Outcome (List Int × ObjLoader) :=
  match tokens with
  | [] => .ok ([], ld)
  | st :: rest =>
    match parse_vertex ld st with
    | .error e => .err e
    | .ok v =>
      match hmGet ld.vertex_map v with
      | some i =>
        match weldCorners ld rest with
        | .ok (is, ld2) => .ok (i :: is, ld2)
        | .err e => .err e
        | .panicked => .panicked
      | none =>
        match add_vertex ld v with
        | none => .panicked
        | some (i, ld1) =>
          match weldCorners ld1 rest with
          | .ok (is, ld2) => .ok (i :: is, ld2)
          | .err e => .err e
          | .panicked => .panicked

/-- Embeds `ObjLoader::add_face`: weld all corners, then triangulate — one triangle
for 3 corners, a first-corner fan for 4, an error otherwise. -/
def add_face (ld : ObjLoader) (tokens : List String) : Outcome ObjLoader :=
  match weldCorners ld tokens with
  | .err e => .err e
  | .panicked => .panicked
  | .ok (v, ld1) =>
    match v with
    | [a, b, c] => .ok { ld1 with faces := ld1.faces ++ [(a, b, c)] }
    | [a, b, c, d] => .ok { ld1 with faces := ld1.faces ++ [(a, b, c), (a, c, d)] }
    | _ => .err ("unexpected number of vertices")

/-- Embeds `ObjLoader::add_point`: three scalars, transformed as a point, appended to
the raw position pool. -/
def add_point (ld : ObjLoader) (tokens : List String) : Except String ObjLoader :=
  (parse_f3 tokens).map (fun f3 =>
    { ld with tmp_data := { ld.tmp_data with p := ld.tmp_data.p ++ [ld.to_world.onPoint f3] } })

/-- Embeds `ObjLoader::add_uv`: two scalars appended, untransformed, to the raw uv
pool. -/
def add_uv (ld : ObjLoader) (tokens : List String) : Except String ObjLoader :=
  (parse_f2 tokens).map (fun f2 =>
    { ld with tmp_data := { ld.tmp_data with uv := ld.tmp_data.uv ++ [f2] } })

/-- Embeds `ObjLoader::add_normal`: three scalars, transformed as a normal, appended
to the raw normal pool. -/
def add_normal (ld : ObjLoader) (tokens : List String) : Except String ObjLoader :=
  (parse_f3 tokens).map (fun f3 =>
    { ld with tmp_data := { ld.tmp_data with n := ld.tmp_data.n ++ [ld.to_world.onNormal f3] } })

/-- The per-line dispatch of `ObjLoader::load`: the leading token selects the
record kind; unknown leading tokens (and empty lines) are ignored.  The Rust
`match` on `tokens.next()` compares string patterns in order, rendered here
as an equality chain. -/
def dispatch (ld : ObjLoader) (tokens : List String) : Outcome ObjLoader :=
  match tokens with
  | [] => .ok ld
  | t :: ts =>
    if t = "v" then outcomeOfRes (add_point ld ts)
    else if t = "vt" then outcomeOfRes (add_uv ld ts)
    else if t = "vn" then outcomeOfRes (add_normal ld ts)
    else if t = "f" then add_face ld ts
    else .ok ld

/-- The line loop of `ObjLoader::load`: split each line on whitespace,
dispatch on the leading token, and finally hand back `(obj_data, faces)`. -/
def loadLines (ld : ObjLoader) (lines : List String) : Outcome (MeshData × List Face) :=
  match lines with
  | [] => .ok (ld.obj_data, ld.faces)
  | line :: rest =>
    match dispatch ld (splitWS line) with
    | .ok ld2 => loadLines ld2 rest
    | .err e => .err e
    | .panicked => .panicked

/-- Embeds `ObjLoader::new(to_world)`: all pools empty. -/
def initLoader (to_world : T) : ObjLoader :=
  { tmp_data := MeshData.empty, obj_data := MeshData.empty,
    faces := [], vertex_map := [], to_world := to_world }

/-- Embeds `ObjLoader::new(to_world).load(buf)` over a list of lines. -/
def load (to_world : T) (lines : List String) : Outcome (MeshData × List Face) :=
  loadLines (initLoader to_world) lines

/-! ### Instrumented (ghost) versions

The instrumented functions recompute exactly the same results as the ones
above while additionally returning the final loader state and the list of
`(key, collected index)` pairs processed, in order — the trace of
face-corner references of a run.  Erasure lemmas below show they project to
the plain functions. -/

/-- The `Outcome` functor action. -/
def Outcome.map {α β : Type} (f : α → β) : Outcome α → Outcome β
  | .ok a => .ok (f a)
  | .err e => .err e
  | .panicked => .panicked

/-- The loop `weldCorners` instrumented with the trace of `(key, index)` pairs. -/
def weldCornersT (ld : ObjLoader) (tokens : List String) :
    Outcome (List Int × ObjLoader × List (Vertex × Int)) :=
  match tokens with
  | [] => .ok ([], ld, [])
  | st :: rest =>
    match parse_vertex ld st with
    | .error e => .err e
    | .ok v =>
      match hmGet ld.vertex_map v with
      | some i =>
        match weldCornersT ld rest with
        | .ok (is, ld2, tr) => .ok (i :: is, ld2, (v, i) :: tr)
        | .err e => .err e
        | .panicked => .panicked
      | none =>
        match add_vertex ld v with
        | none => .panicked
        | some (i, ld1) =>
          match weldCornersT ld1 rest with
          | .ok (is, ld2, tr) => .ok (i :: is, ld2, (v, i) :: tr)
          | .err e => .err e
          | .panicked => .panicked

/-- The assembler `add_face` instrumented with the trace. -/
def add_faceT (ld : ObjLoader) (tokens : List String) :
    Outcome (ObjLoader × List (Vertex × Int)) :=
  match weldCornersT ld tokens with
  | .err e => .err e
  | .panicked => .panicked
  | .ok (v, ld1, tr) =>
    match v with
    | [a, b, c] => .ok ({ ld1 with faces := ld1.faces ++ [(a, b, c)] }, tr)
    | [a, b, c, d] => .ok ({ ld1 with faces := ld1.faces ++ [(a, b, c), (a, c, d)] }, tr)
    | _ => .err ("unexpected number of vertices")

/-- The dispatcher `dispatch` instrumented with the trace. -/
def dispatchT (ld : ObjLoader) (tokens : List String) :
    Outcome (ObjLoader × List (Vertex × Int)) :=
  match tokens with
  | [] => .ok (ld, [])
  | t :: ts =>
    if t = "v" then (outcomeOfRes (add_point ld ts)).map (fun l2 => (l2, []))
    else if t = "vt" then (outcomeOfRes (add_uv ld ts)).map (fun l2 => (l2, []))
    else if t = "vn" then (outcomeOfRes (add_normal ld ts)).map (fun l2 => (l2, []))
    else if t = "f" then add_faceT ld ts
    else .ok (ld, [])

/-- The line loop `loadLines` instrumented with the final loader state and the whole-pass
trace. -/
def loadLinesT (ld : ObjLoader) (lines : List String) :
    Outcome ((MeshData × List Face) × ObjLoader × List (Vertex × Int)) :=
  match lines with
  | [] => .ok ((ld.obj_data, ld.faces), ld, [])
  | line :: rest =>
    match dispatchT ld (splitWS line) with
    | .ok (ld2, tr) =>
      match loadLinesT ld2 rest with
      | .ok (out, ldf, tr2) => .ok (out, ldf, tr ++ tr2)
      | .err e => .err e
      | .panicked => .panicked
    | .err e => .err e
    | .panicked => .panicked

/-- The loader `load` instrumented with the final loader state and the trace. -/
def loadT (to_world : T) (lines : List String) :
    Outcome ((MeshData × List Face) × ObjLoader × List (Vertex × Int)) :=
  loadLinesT (initLoader to_world) lines

/-- Erasure: `weldCornersT` projects to `weldCorners`. -/
theorem weldCornersT_erase (ld : ObjLoader) (tokens : List String) :
    weldCorners ld tokens = (weldCornersT ld tokens).map (fun x => (x.1, x.2.1)) := by
  induction tokens generalizing ld with
  | nil => rfl
  | cons st rest ih =>
    cases hpv : parse_vertex ld st with
    | error e => simp only [weldCorners, weldCornersT, hpv, Outcome.map]
    | ok v =>
      cases hget : hmGet ld.vertex_map v with
      | some i =>
        cases hw : weldCornersT ld rest with
        | ok x =>
          obtain ⟨is, ld2, tr⟩ := x
          simp only [weldCorners, weldCornersT, hpv, hget, hw, ih, Outcome.map]
        | err e => simp only [weldCorners, weldCornersT, hpv, hget, hw, ih, Outcome.map]
        | panicked => simp only [weldCorners, weldCornersT, hpv, hget, hw, ih, Outcome.map]
      | none =>
        cases hav : add_vertex ld v with
        | none => simp only [weldCorners, weldCornersT, hpv, hget, hav, Outcome.map]
        | some pr =>
          obtain ⟨i2, ld1⟩ := pr
          cases hw : weldCornersT ld1 rest with
          | ok x =>
            obtain ⟨is, ld2, tr⟩ := x
            simp only [weldCorners, weldCornersT, hpv, hget, hav, hw, ih, Outcome.map]
          | err e => simp only [weldCorners, weldCornersT, hpv, hget, hav, hw, ih, Outcome.map]
          | panicked => simp only [weldCorners, weldCornersT, hpv, hget, hav, hw, ih, Outcome.map]

/-- Erasure: `add_faceT` projects to `add_face`. -/
theorem add_faceT_erase (ld : ObjLoader) (tokens : List String) :
    add_face ld tokens = (add_faceT ld tokens).map Prod.fst := by
  rw [add_face, add_faceT, weldCornersT_erase]
  cases weldCornersT ld tokens with
  | err e => rfl
  | panicked => rfl
  | ok x =>
    obtain ⟨v, ld1, tr⟩ := x
    match v with
    | [] => rfl
    | [a] => rfl
    | [a, b] => rfl
    | [a, b, c] => rfl
    | [a, b, c, d] => rfl
    | a :: b :: c :: d :: e :: l => rfl

/-- Erasure: `dispatchT` projects to `dispatch`. -/
theorem dispatchT_erase (ld : ObjLoader) (tokens : List String) :
    dispatch ld tokens = (dispatchT ld tokens).map Prod.fst := by
  match tokens with
  | [] => rfl
  | t :: ts =>
    rw [dispatch, dispatchT]
    by_cases hv : t = "v"
    · simp only [hv, if_pos rfl]
      cases add_point ld ts <;> rfl
    · rw [if_neg hv, if_neg hv]
      by_cases ht : t = "vt"
      · simp only [ht, if_pos rfl]
        cases add_uv ld ts <;> rfl
      · rw [if_neg ht, if_neg ht]
        by_cases hn : t = "vn"
        · simp only [hn, if_pos rfl]
          cases add_normal ld ts <;> rfl
        · rw [if_neg hn, if_neg hn]
          by_cases hf : t = "f"
          · simp only [hf, if_pos rfl]
            exact add_faceT_erase ld ts
          · rw [if_neg hf, if_neg hf]
            rfl

/-- Erasure: `loadLinesT` projects to `loadLines`. -/
theorem loadLinesT_erase (ld : ObjLoader) (lines : List String) :
    loadLines ld lines = (loadLinesT ld lines).map Prod.fst := by
  induction lines generalizing ld with
  | nil => rfl
  | cons line rest ih =>
    rw [loadLines, loadLinesT, dispatchT_erase]
    cases hd : dispatchT ld (splitWS line) with
    | err e => rfl
    | panicked => rfl
    | ok x =>
      obtain ⟨ld2, tr⟩ := x
      cases hl : loadLinesT ld2 rest with
      | ok y =>
        obtain ⟨out, ldf, tr2⟩ := y
        simp only [Outcome.map, ih, hl]
      | err e => simp only [Outcome.map, ih, hl]
      | panicked => simp only [Outcome.map, ih, hl]

/-- Erasure: `loadT` projects to `load`. -/
theorem loadT_erase (to_world : T) (lines : List String) :
    load to_world lines = (loadT to_world lines).map Prod.fst :=
  loadLinesT_erase (initLoader to_world) lines

/-! ### Welding-table invariants -/

/-- A key found by `hmGet` is an entry of the list. -/
theorem hmGet_mem (m : List (Vertex × Int)) (k : Vertex) (i : Int)
    (h : hmGet m k = some i) : (k, i) ∈ m := by
  induction m with
  | nil => exact absurd h (by simp [hmGet])
  | cons e rest ih =>
    obtain ⟨k2, j⟩ := e
    simp only [hmGet] at h
    by_cases hk : k2 = k
    · rw [if_pos hk] at h
      subst hk
      obtain rfl : j = i := by injection h
      exact List.mem_cons_self _ _
    · rw [if_neg hk] at h
      exact List.mem_cons_of_mem _ (ih h)

/-- Lookup misses exactly the keys outside the key list. -/
theorem hmGet_eq_none_iff (m : List (Vertex × Int)) (k : Vertex) :
    hmGet m k = none ↔ k ∉ m.map Prod.fst := by
  induction m with
  | nil => simp [hmGet]
  | cons e rest ih =>
    obtain ⟨k2, j⟩ := e
    simp only [hmGet]
    by_cases hk : k2 = k
    · rw [if_pos hk]
      subst hk
      simp
    · rw [if_neg hk, ih]
      simp only [List.map_cons, List.mem_cons, not_or]
      constructor
      · intro hnm
        exact ⟨fun he => hk he.symm, hnm⟩
      · intro hnm
        exact hnm.2

/-- A present entry survives appending on the right. -/
theorem hmGet_append_of_some (m ext : List (Vertex × Int)) (k : Vertex) (i : Int)
    (h : hmGet m k = some i) : hmGet (m ++ ext) k = some i := by
  induction m with
  | nil => exact absurd h (by simp [hmGet])
  | cons e rest ih =>
    obtain ⟨k2, j⟩ := e
    simp only [hmGet] at h
    simp only [List.cons_append, hmGet]
    by_cases hk : k2 = k
    · rwa [if_pos hk] at h ⊢
    · rw [if_neg hk] at h ⊢
      exact ih h

/-- Lookup skips over a prefix that misses the key. -/
theorem hmGet_append_of_none (m ext : List (Vertex × Int)) (k : Vertex)
    (h : hmGet m k = none) : hmGet (m ++ ext) k = hmGet ext k := by
  induction m with
  | nil => simp
  | cons e rest ih =>
    obtain ⟨k2, j⟩ := e
    simp only [hmGet] at h
    by_cases hk : k2 = k
    · rw [if_pos hk] at h
      exact absurd h (by simp)
    · rw [if_neg hk] at h
      simp only [List.cons_append, hmGet, if_neg hk]
      exact ih h

/-- Inserting an absent key appends it at the end. -/
theorem hmInsert_of_none (m : List (Vertex × Int)) (k : Vertex) (i : Int)
    (h : hmGet m k = none) : hmInsert m k i = m ++ [(k, i)] := by
  induction m with
  | nil => rfl
  | cons e rest ih =>
    obtain ⟨k2, j⟩ := e
    simp only [hmGet] at h
    by_cases hk : k2 = k
    · rw [if_pos hk] at h
      exact absurd h (by simp)
    · rw [if_neg hk] at h
      simp only [hmInsert, if_neg hk, List.cons_append, ih h]

/-- The welding-table invariant: keys are pairwise distinct and the values
are, in order, `0, 1, 2, …` — i.e. each entry's welded index is the table
size at the time of its insertion. -/
def WeldInv (m : List (Vertex × Int)) : Prop :=
  (m.map Prod.fst).Nodup ∧
    m.map Prod.snd = (List.range m.length).map (fun j : Nat => (j : Int))

/-- The empty table satisfies the invariant. -/
theorem WeldInv_nil : WeldInv [] := ⟨List.nodup_nil, rfl⟩

/-- Appending an absent key with value `length` preserves the invariant. -/
theorem WeldInv_append (m : List (Vertex × Int)) (k : Vertex)
    (hm : WeldInv m) (hnone : hmGet m k = none) :
    WeldInv (m ++ [(k, (m.length : Int))]) := by
  obtain ⟨hnd, hval⟩ := hm
  constructor
  · rw [List.map_append]
    refine List.Nodup.append hnd (List.nodup_singleton _) ?_
    intro x hx hx2
    simp only [List.map_cons, List.map_nil, List.mem_singleton] at hx2
    rw [hx2] at hx
    exact (hmGet_eq_none_iff m k).mp hnone hx
  · rw [List.map_append, List.length_append, hval]
    simp [List.range_succ]

/-- Under the invariant, every stored welded index lies in `[0, size)`. -/
theorem WeldInv_lookup (m : List (Vertex × Int)) (k : Vertex) (i : Int)
    (hm : WeldInv m) (h : hmGet m k = some i) :
    0 ≤ i ∧ i < (m.length : Int) := by
  have hmem : (k, i) ∈ m := hmGet_mem m k i h
  have hv : i ∈ m.map Prod.snd := List.mem_map_of_mem Prod.snd hmem
  rw [hm.2] at hv
  rw [List.mem_map] at hv
  obtain ⟨j, hj, rfl⟩ := hv
  rw [List.mem_range] at hj
  exact ⟨Int.natCast_nonneg j, by exact_mod_cast hj⟩

/-- What `add_vertex` does to the loader state: the welded index handed back
is the table size before insertion, exactly one position is appended to the
welded output, and nothing else changes besides the uv/normal outputs. -/
theorem add_vertex_spec (ld : ObjLoader) (v : Vertex) (i : Int) (ld' : ObjLoader)
    (h : add_vertex ld v = some (i, ld')) :
    i = (ld.vertex_map.length : Int) ∧
    ld'.vertex_map = hmInsert ld.vertex_map v (ld.vertex_map.length : Int) ∧
    ld'.tmp_data = ld.tmp_data ∧
    ld'.faces = ld.faces ∧
    ld'.to_world = ld.to_world ∧
    ld'.obj_data.p.length = ld.obj_data.p.length + 1 := by
  rw [add_vertex] at h
  cases hp : ld.tmp_data.p.get? (asUsize v.p) with
  | none =>
    simp only [hp] at h
    exact absurd h (by simp)
  | some pos =>
    simp only [hp] at h
    by_cases ht : v.t = -1
    · rw [if_neg (not_not_intro ht)] at h
      dsimp only at h
      by_cases hn : v.n = -1
      · rw [if_neg (not_not_intro hn)] at h
        dsimp only at h
        simp only [Option.some.injEq, Prod.mk.injEq] at h
        obtain ⟨h1, h2⟩ := h
        subst h2
        exact ⟨h1.symm, by simp, rfl, rfl, rfl, by simp⟩
      · rw [if_pos hn] at h
        cases hg : (ld.tmp_data.n.get? (asUsize v.n) : Option F3) with
        | none =>
          simp only [hg, Option.map_none'] at h
          exact absurd h (by simp)
        | some nn =>
          simp only [hg, Option.map_some', Option.some.injEq, Prod.mk.injEq] at h
          obtain ⟨h1, h2⟩ := h
          subst h2
          exact ⟨h1.symm, by simp, rfl, rfl, rfl, by simp⟩
    · rw [if_pos ht] at h
      cases hg : (ld.tmp_data.uv.get? (asUsize v.t) : Option F2) with
      | none =>
        simp only [hg, Option.map_none'] at h
        exact absurd h (by simp)
      | some uv =>
        simp only [hg, Option.map_some'] at h
        by_cases hn : v.n = -1
        · rw [if_neg (not_not_intro hn)] at h
          dsimp only at h
          simp only [Option.some.injEq, Prod.mk.injEq] at h
          obtain ⟨h1, h2⟩ := h
          subst h2
          exact ⟨h1.symm, by simp, rfl, rfl, rfl, by simp⟩
        · rw [if_pos hn] at h
          cases hg2 : (ld.tmp_data.n.get? (asUsize v.n) : Option F3) with
          | none =>
            simp only [hg2, Option.map_none'] at h
            exact absurd h (by simp)
          | some nn =>
            simp only [hg2, Option.map_some', Option.some.injEq, Prod.mk.injEq] at h
            obtain ⟨h1, h2⟩ := h
            subst h2
            exact ⟨h1.symm, by simp, rfl, rfl, rfl, by simp⟩

/-- Running `add_vertex` on an absent key: the new entry is appended at the end of
the table with the old size as its welded index. -/
theorem add_vertex_fresh (ld : ObjLoader) (v : Vertex) (i : Int) (ld' : ObjLoader)
    (hnone : hmGet ld.vertex_map v = none)
    (h : add_vertex ld v = some (i, ld')) :
    i = (ld.vertex_map.length : Int) ∧
    ld'.vertex_map = ld.vertex_map ++ [(v, i)] ∧
    ld'.tmp_data = ld.tmp_data ∧
    ld'.faces = ld.faces ∧
    ld'.to_world = ld.to_world ∧
    ld'.obj_data.p.length = ld.obj_data.p.length + 1 := by
  obtain ⟨h1, h2, h3, h4, h5, h6⟩ := add_vertex_spec ld v i ld' h
  refine ⟨h1, ?_, h3, h4, h5, h6⟩
  rw [h2, hmInsert_of_none _ _ _ hnone, h1]

/-- The state evolution of the corner-welding loop: the welding table grows
append-only, keeps the invariant, stays in lock-step with the welded
position output, records every traced `(key, index)` pair, gains exactly
the keys of the trace, and every collected index is within the final table
size.  Faces, raw pools and the transform are untouched. -/
theorem weldCornersT_inv (tokens : List String) (ld : ObjLoader)
    (is : List Int) (ld' : ObjLoader) (tr : List (Vertex × Int))
    (hinv : WeldInv ld.vertex_map)
    (hpl : ld.obj_data.p.length = ld.vertex_map.length)
    (h : weldCornersT ld tokens = .ok (is, ld', tr)) :
    (∃ ext, ld'.vertex_map = ld.vertex_map ++ ext) ∧
    WeldInv ld'.vertex_map ∧
    ld'.obj_data.p.length = ld'.vertex_map.length ∧
    (∀ pr ∈ tr, hmGet ld'.vertex_map pr.1 = some pr.2) ∧
    ((ld'.vertex_map.map Prod.fst).toFinset =
      (ld.vertex_map.map Prod.fst).toFinset ∪ (tr.map Prod.fst).toFinset) ∧
    (∀ j ∈ is, 0 ≤ j ∧ j < (ld'.vertex_map.length : Int)) ∧
    ld'.faces = ld.faces ∧
    ld'.tmp_data = ld.tmp_data ∧
    ld'.to_world = ld.to_world ∧
    is.length = tokens.length ∧
    tr.map Prod.snd = is := by
  induction tokens generalizing ld is ld' tr with
  | nil =>
    rw [weldCornersT] at h
    simp only [Outcome.ok.injEq, Prod.mk.injEq] at h
    obtain ⟨h1, h2, h3⟩ := h
    subst h1; subst h2; subst h3
    refine ⟨⟨[], by simp⟩, hinv, hpl, by simp, by simp, by simp, rfl, rfl, rfl, rfl, rfl⟩
  | cons st rest ih =>
    rw [weldCornersT] at h
    cases hpv : parse_vertex ld st with
    | error e =>
      simp only [hpv] at h
      exact absurd h (by simp)
    | ok v =>
      simp only [hpv] at h
      cases hget : hmGet ld.vertex_map v with
      | some j =>
        simp only [hget] at h
        cases hw : weldCornersT ld rest with
        | err e => simp only [hw] at h; exact absurd h (by simp)
        | panicked => simp only [hw] at h; exact absurd h (by simp)
        | ok x =>
          obtain ⟨is0, ld2, tr0⟩ := x
          simp only [hw, Outcome.ok.injEq, Prod.mk.injEq] at h
          obtain ⟨h1, h2, h3⟩ := h
          subst h1; subst h2; subst h3
          obtain ⟨⟨ext1, hext⟩, hinv2, hpl2, hlk, hfs, hbd, hfa, htd, htw, hlen, htr⟩ :=
            ih ld is0 ld2 tr0 hinv hpl hw
          have hjlt : 0 ≤ j ∧ j < (ld.vertex_map.length : Int) :=
            WeldInv_lookup ld.vertex_map v j hinv hget
          have hmono : ld.vertex_map.length ≤ ld2.vertex_map.length := by
            rw [hext, List.length_append]
            omega
          refine ⟨⟨ext1, hext⟩, hinv2, hpl2, ?_, ?_, ?_, hfa, htd, htw, by simp [hlen], ?_⟩
          · intro pr hpr
            rcases List.mem_cons.mp hpr with hpr1 | hpr2
            · subst hpr1
              rw [hext]
              exact hmGet_append_of_some _ _ _ _ hget
            · exact hlk pr hpr2
          · simp only [List.map_cons, List.toFinset_cons]
            rw [hfs, Finset.union_insert, Finset.insert_eq_self.mpr]
            refine Finset.mem_union_left _ ?_
            refine List.mem_toFinset.mpr ?_
            exact List.mem_map_of_mem Prod.fst (hmGet_mem _ _ _ hget)
          · intro x hx
            rcases List.mem_cons.mp hx with hx1 | hx2
            · subst hx1
              exact ⟨hjlt.1, by omega⟩
            · exact hbd x hx2
          · simp [htr]
      | none =>
        simp only [hget] at h
        cases hav : add_vertex ld v with
        | none => simp only [hav] at h; exact absurd h (by simp)
        | some pr =>
          obtain ⟨j, ld1⟩ := pr
          simp only [hav] at h
          cases hw : weldCornersT ld1 rest with
          | err e => simp only [hw] at h; exact absurd h (by simp)
          | panicked => simp only [hw] at h; exact absurd h (by simp)
          | ok x =>
            obtain ⟨is0, ld2, tr0⟩ := x
            simp only [hw, Outcome.ok.injEq, Prod.mk.injEq] at h
            obtain ⟨h1, h2, h3⟩ := h
            subst h1; subst h2; subst h3
            obtain ⟨hj, hm1, ht1, hf1, hw1, hp1⟩ := add_vertex_fresh ld v j ld1 hget hav
            have hinv1 : WeldInv ld1.vertex_map := by
              rw [hm1, hj]
              exact WeldInv_append _ _ hinv hget
            have hpl1 : ld1.obj_data.p.length = ld1.vertex_map.length := by
              rw [hp1, hm1, List.length_append, hpl]
              simp
            obtain ⟨⟨ext1, hext⟩, hinv2, hpl2, hlk, hfs, hbd, hfa, htd, htw, hlen, htr⟩ :=
              ih ld1 is0 ld2 tr0 hinv1 hpl1 hw
            have hget1 : hmGet ld1.vertex_map v = some j := by
              rw [hm1, hmGet_append_of_none _ _ _ hget]
              simp [hmGet]
            have hlen1 : ld1.vertex_map.length = ld.vertex_map.length + 1 := by
              rw [hm1, List.length_append]
              simp
            have hmono : ld1.vertex_map.length ≤ ld2.vertex_map.length := by
              rw [hext, List.length_append]
              omega
            refine ⟨⟨(v, j) :: ext1, by rw [hext, hm1]; simp⟩, hinv2, hpl2, ?_, ?_, ?_,
              by rw [hfa, hf1], by rw [htd, ht1], by rw [htw, hw1], by simp [hlen], ?_⟩
            · intro pr hpr
              rcases List.mem_cons.mp hpr with hpr1 | hpr2
              · subst hpr1
                rw [hext]
                exact hmGet_append_of_some _ _ _ _ hget1
              · exact hlk pr hpr2
            · simp only [List.map_cons, List.toFinset_cons]
              rw [hfs, hm1, List.map_append, List.toFinset_append]
              simp only [List.map_cons, List.map_nil, List.toFinset_cons, List.toFinset_nil]
              rw [Finset.union_assoc, Finset.insert_union, Finset.empty_union]
            · intro x hx
              rcases List.mem_cons.mp hx with hx1 | hx2
              · subst hx1
                rw [hj]
                constructor
                · exact Int.natCast_nonneg _
                · omega
              · exact hbd x hx2
            · simp [htr]

/-- A welded face triple with all indices inside `[0, n)`. -/
def FaceInRange (f : Face) (n : Nat) : Prop :=
  0 ≤ f.1 ∧ f.1 < (n : Int) ∧ 0 ≤ f.2.1 ∧ f.2.1 < (n : Int) ∧ 0 ≤ f.2.2 ∧ f.2.2 < (n : Int)

/-- Growing the bound preserves `FaceInRange`. -/
theorem FaceInRange.mono (f : Face) (n n2 : Nat) (hle : n ≤ n2)
    (h : FaceInRange f n) : FaceInRange f n2 := by
  obtain ⟨h1, h2, h3, h4, h5, h6⟩ := h
  have : (n : Int) ≤ (n2 : Int) := by exact_mod_cast hle
  exact ⟨h1, by omega, h3, by omega, h5, by omega⟩

/-- The ingestor `add_point` only appends to the raw position pool. -/
theorem add_point_spec (ld : ObjLoader) (ts : List String) (ld2 : ObjLoader)
    (h : add_point ld ts = .ok ld2) :
    ld2.vertex_map = ld.vertex_map ∧ ld2.obj_data = ld.obj_data ∧
    ld2.faces = ld.faces ∧ ld2.to_world = ld.to_world := by
  rw [add_point] at h
  cases hp : parse_f3 ts with
  | error e => rw [hp] at h; exact absurd h (by simp [Except.map])
  | ok f3 =>
    rw [hp] at h
    simp only [Except.map, Except.ok.injEq] at h
    subst h
    exact ⟨rfl, rfl, rfl, rfl⟩

/-- The ingestor `add_uv` only appends to the raw uv pool. -/
theorem add_uv_spec (ld : ObjLoader) (ts : List String) (ld2 : ObjLoader)
    (h : add_uv ld ts = .ok ld2) :
    ld2.vertex_map = ld.vertex_map ∧ ld2.obj_data = ld.obj_data ∧
    ld2.faces = ld.faces ∧ ld2.to_world = ld.to_world := by
  rw [add_uv] at h
  cases hp : parse_f2 ts with
  | error e => rw [hp] at h; exact absurd h (by simp [Except.map])
  | ok f2 =>
    rw [hp] at h
    simp only [Except.map, Except.ok.injEq] at h
    subst h
    exact ⟨rfl, rfl, rfl, rfl⟩

/-- The ingestor `add_normal` only appends to the raw normal pool. -/
theorem add_normal_spec (ld : ObjLoader) (ts : List String) (ld2 : ObjLoader)
    (h : add_normal ld ts = .ok ld2) :
    ld2.vertex_map = ld.vertex_map ∧ ld2.obj_data = ld.obj_data ∧
    ld2.faces = ld.faces ∧ ld2.to_world = ld.to_world := by
  rw [add_normal] at h
  cases hp : parse_f3 ts with
  | error e => rw [hp] at h; exact absurd h (by simp [Except.map])
  | ok f3 =>
    rw [hp] at h
    simp only [Except.map, Except.ok.injEq] at h
    subst h
    exact ⟨rfl, rfl, rfl, rfl⟩

/-- State evolution of `add_faceT`: welding effects are those of the corner
loop, and the only other change is appending the new triangle(s), whose
indices are all inside the final table size. -/
theorem add_faceT_inv (ld : ObjLoader) (tokens : List String) (ld2 : ObjLoader)
    (tr : List (Vertex × Int))
    (hinv : WeldInv ld.vertex_map)
    (hpl : ld.obj_data.p.length = ld.vertex_map.length)
    (h : add_faceT ld tokens = .ok (ld2, tr)) :
    (∃ ext, ld2.vertex_map = ld.vertex_map ++ ext) ∧
    WeldInv ld2.vertex_map ∧
    ld2.obj_data.p.length = ld2.vertex_map.length ∧
    (∀ pr ∈ tr, hmGet ld2.vertex_map pr.1 = some pr.2) ∧
    ((ld2.vertex_map.map Prod.fst).toFinset =
      (ld.vertex_map.map Prod.fst).toFinset ∪ (tr.map Prod.fst).toFinset) ∧
    ((∀ f ∈ ld.faces, FaceInRange f ld.vertex_map.length) →
      ∀ f ∈ ld2.faces, FaceInRange f ld2.vertex_map.length) ∧
    ld2.tmp_data = ld.tmp_data ∧
    ld2.to_world = ld.to_world := by
  rw [add_faceT] at h
  cases hw : weldCornersT ld tokens with
  | err e =>
    simp only [hw] at h
    exact absurd h (by simp)
  | panicked =>
    simp only [hw] at h
    exact absurd h (by simp)
  | ok x =>
    obtain ⟨v, ld1, tr0⟩ := x
    simp only [hw] at h
    obtain ⟨⟨ext1, hext⟩, hinv1, hpl1, hlk, hfs, hbd, hfa, htd, htw, hlen, htr⟩ :=
      weldCornersT_inv tokens ld v ld1 tr0 hinv hpl hw
    have hmono : ld.vertex_map.length ≤ ld1.vertex_map.length := by
      rw [hext, List.length_append]; omega
    rcases v with _ | ⟨a, _ | ⟨b, _ | ⟨c, _ | ⟨d, _ | ⟨e5, vrest⟩⟩⟩⟩⟩
    · exact absurd h (by simp)
    · exact absurd h (by simp)
    · exact absurd h (by simp)
    · simp only [Outcome.ok.injEq, Prod.mk.injEq] at h
      obtain ⟨h1, h2⟩ := h
      subst h1; subst h2
      refine ⟨⟨ext1, hext⟩, hinv1, hpl1, hlk, hfs, ?_, htd, htw⟩
      intro hold f hf
      rw [hfa] at hf
      rcases List.mem_append.mp hf with hf1 | hf2
      · exact FaceInRange.mono f _ _ hmono (hold f hf1)
      · have ha := hbd a (by simp)
        have hb := hbd b (by simp)
        have hc := hbd c (by simp)
        simp only [List.mem_singleton] at hf2
        subst hf2
        exact ⟨ha.1, ha.2, hb.1, hb.2, hc.1, hc.2⟩
    · simp only [Outcome.ok.injEq, Prod.mk.injEq] at h
      obtain ⟨h1, h2⟩ := h
      subst h1; subst h2
      refine ⟨⟨ext1, hext⟩, hinv1, hpl1, hlk, hfs, ?_, htd, htw⟩
      intro hold f hf
      rw [hfa] at hf
      rcases List.mem_append.mp hf with hf1 | hf2
      · exact FaceInRange.mono f _ _ hmono (hold f hf1)
      · have ha := hbd a (by simp)
        have hb := hbd b (by simp)
        have hc := hbd c (by simp)
        have hd := hbd d (by simp)
        rcases List.mem_cons.mp hf2 with hf3 | hf4
        · subst hf3
          exact ⟨ha.1, ha.2, hb.1, hb.2, hc.1, hc.2⟩
        · simp only [List.mem_singleton] at hf4
          subst hf4
          exact ⟨ha.1, ha.2, hc.1, hc.2, hd.1, hd.2⟩
    · exact absurd h (by simp)

/-- State evolution of one dispatched line. -/
theorem dispatchT_inv (ld : ObjLoader) (tokens : List String) (ld2 : ObjLoader)
    (tr : List (Vertex × Int))
    (hinv : WeldInv ld.vertex_map)
    (hpl : ld.obj_data.p.length = ld.vertex_map.length)
    (h : dispatchT ld tokens = .ok (ld2, tr)) :
    (∃ ext, ld2.vertex_map = ld.vertex_map ++ ext) ∧
    WeldInv ld2.vertex_map ∧
    ld2.obj_data.p.length = ld2.vertex_map.length ∧
    (∀ pr ∈ tr, hmGet ld2.vertex_map pr.1 = some pr.2) ∧
    ((ld2.vertex_map.map Prod.fst).toFinset =
      (ld.vertex_map.map Prod.fst).toFinset ∪ (tr.map Prod.fst).toFinset) ∧
    ((∀ f ∈ ld.faces, FaceInRange f ld.vertex_map.length) →
      ∀ f ∈ ld2.faces, FaceInRange f ld2.vertex_map.length) := by
  have hsame : ∀ ld3 : ObjLoader, ld3.vertex_map = ld.vertex_map →
      ld3.obj_data = ld.obj_data → ld3.faces = ld.faces → ld3 = ld2 → tr = [] →
      (∃ ext, ld2.vertex_map = ld.vertex_map ++ ext) ∧
      WeldInv ld2.vertex_map ∧
      ld2.obj_data.p.length = ld2.vertex_map.length ∧
      (∀ pr ∈ tr, hmGet ld2.vertex_map pr.1 = some pr.2) ∧
      ((ld2.vertex_map.map Prod.fst).toFinset =
        (ld.vertex_map.map Prod.fst).toFinset ∪ (tr.map Prod.fst).toFinset) ∧
      ((∀ f ∈ ld.faces, FaceInRange f ld.vertex_map.length) →
        ∀ f ∈ ld2.faces, FaceInRange f ld2.vertex_map.length) := by
    intro ld3 hm ho hf he ht
    subst he; subst ht
    refine ⟨⟨[], by simp [hm]⟩, by rw [hm]; exact hinv, by rw [hm, ho]; exact hpl,
      by simp, by simp [hm], ?_⟩
    intro hold f hf2
    rw [hf] at hf2
    rw [hm]
    exact hold f hf2
  cases tokens with
  | nil =>
    rw [dispatchT] at h
    simp only [Outcome.ok.injEq, Prod.mk.injEq] at h
    exact hsame ld rfl rfl rfl h.1 h.2.symm
  | cons t ts =>
    rw [dispatchT] at h
    by_cases hv : t = "v"
    · rw [if_pos hv] at h
      cases hap : add_point ld ts with
      | error e =>
        simp only [hap, outcomeOfRes, Outcome.map] at h
        exact absurd h (by simp)
      | ok ld3 =>
        simp only [hap, outcomeOfRes, Outcome.map, Outcome.ok.injEq, Prod.mk.injEq] at h
        obtain ⟨hm, ho, hf, _⟩ := add_point_spec ld ts ld3 hap
        exact hsame ld3 hm ho hf h.1 h.2.symm
    · rw [if_neg hv] at h
      by_cases ht : t = "vt"
      · rw [if_pos ht] at h
        cases hap : add_uv ld ts with
        | error e =>
          simp only [hap, outcomeOfRes, Outcome.map] at h
          exact absurd h (by simp)
        | ok ld3 =>
          simp only [hap, outcomeOfRes, Outcome.map, Outcome.ok.injEq, Prod.mk.injEq] at h
          obtain ⟨hm, ho, hf, _⟩ := add_uv_spec ld ts ld3 hap
          exact hsame ld3 hm ho hf h.1 h.2.symm
      · rw [if_neg ht] at h
        by_cases hn : t = "vn"
        · rw [if_pos hn] at h
          cases hap : add_normal ld ts with
          | error e =>
          simp only [hap, outcomeOfRes, Outcome.map] at h
          exact absurd h (by simp)
          | ok ld3 =>
            simp only [hap, outcomeOfRes, Outcome.map, Outcome.ok.injEq, Prod.mk.injEq] at h
            obtain ⟨hm, ho, hf, _⟩ := add_normal_spec ld ts ld3 hap
            exact hsame ld3 hm ho hf h.1 h.2.symm
        · rw [if_neg hn] at h
          by_cases hff : t = "f"
          · rw [if_pos hff] at h
            obtain ⟨he, hi2, hp2, hl2, hf2, hr2, _, _⟩ := add_faceT_inv ld ts ld2 tr hinv hpl h
            exact ⟨he, hi2, hp2, hl2, hf2, hr2⟩
          · rw [if_neg hff] at h
            simp only [Outcome.ok.injEq, Prod.mk.injEq] at h
            exact hsame ld rfl rfl rfl h.1 h.2.symm

/-- State evolution of the whole line loop: the output is the final welded
data and face list, the welding table evolves append-only under its
invariant in lock-step with the welded positions, the trace is faithfully
recorded, and all faces stay inside the table size. -/
theorem loadLinesT_inv (lines : List String) (ld : ObjLoader)
    (out : MeshData × List Face) (ldf : ObjLoader) (tr : List (Vertex × Int))
    (hinv : WeldInv ld.vertex_map)
    (hpl : ld.obj_data.p.length = ld.vertex_map.length)
    (h : loadLinesT ld lines = .ok (out, ldf, tr)) :
    out = (ldf.obj_data, ldf.faces) ∧
    (∃ ext, ldf.vertex_map = ld.vertex_map ++ ext) ∧
    WeldInv ldf.vertex_map ∧
    ldf.obj_data.p.length = ldf.vertex_map.length ∧
    (∀ pr ∈ tr, hmGet ldf.vertex_map pr.1 = some pr.2) ∧
    ((ldf.vertex_map.map Prod.fst).toFinset =
      (ld.vertex_map.map Prod.fst).toFinset ∪ (tr.map Prod.fst).toFinset) ∧
    ((∀ f ∈ ld.faces, FaceInRange f ld.vertex_map.length) →
      ∀ f ∈ ldf.faces, FaceInRange f ldf.vertex_map.length) := by
  induction lines generalizing ld out ldf tr with
  | nil =>
    rw [loadLinesT] at h
    simp only [Outcome.ok.injEq, Prod.mk.injEq] at h
    obtain ⟨h1, h2, h3⟩ := h
    subst h2; subst h3
    exact ⟨h1.symm, ⟨[], by simp⟩, hinv, hpl, by simp, by simp, fun hold => hold⟩
  | cons line rest ih =>
    rw [loadLinesT] at h
    cases hd : dispatchT ld (splitWS line) with
    | err e =>
      simp only [hd] at h
      exact absurd h (by simp)
    | panicked =>
      simp only [hd] at h
      exact absurd h (by simp)
    | ok x =>
      obtain ⟨ld2, tr1⟩ := x
      simp only [hd] at h
      cases hl : loadLinesT ld2 rest with
      | err e =>
        simp only [hl] at h
        exact absurd h (by simp)
      | panicked =>
        simp only [hl] at h
        exact absurd h (by simp)
      | ok y =>
        obtain ⟨out2, ldf2, tr2⟩ := y
        simp only [hl, Outcome.ok.injEq, Prod.mk.injEq] at h
        obtain ⟨h1, h2, h3⟩ := h
        subst h1; subst h2; subst h3
        obtain ⟨⟨ext1, hext1⟩, hinv1, hpl1, hlk1, hfs1, hrg1⟩ :=
          dispatchT_inv ld (splitWS line) ld2 tr1 hinv hpl hd
        obtain ⟨hout, ⟨ext2, hext2⟩, hinv2, hpl2, hlk2, hfs2, hrg2⟩ :=
          ih ld2 out2 ldf2 tr2 hinv1 hpl1 hl
        refine ⟨hout, ⟨ext1 ++ ext2, by rw [hext2, hext1, List.append_assoc]⟩,
          hinv2, hpl2, ?_, ?_, ?_⟩
        · intro pr hpr
          rcases List.mem_append.mp hpr with hpr1 | hpr2
          · rw [hext2]
            exact hmGet_append_of_some _ _ _ _ (hlk1 pr hpr1)
          · exact hlk2 pr hpr2
        · rw [hfs2, hfs1, List.map_append, List.toFinset_append, Finset.union_assoc]
        · intro hold
          exact hrg2 (hrg1 hold)

/-! ### Claim theorems -/

/-- A corner token consisting of a single parsable field: position resolved,
`t`/`n` at the sentinel. -/
theorem parse_vertex_single (ld : ObjLoader) (token s : String) (v : Int)
    (hsp : strSplit token (fun c => c = '/') = [s])
    (hv : parseIntTok s = some v) :
    parse_vertex ld token = .ok
      { p := if v > 0 then v - 1 else v + (ld.tmp_data.p.length : Int), t := -1, n := -1 } := by
  rw [parse_vertex, hsp]
  simp only [parse_index, parseI, hv, Except.map]

/-- Full field characterization of `parse_vertex` for a parsable position:
the `t` field is the optional resolution of the remaining field tokens
against the uv pool, and the `n` field the optional resolution of what that
leaves against the normal pool — each falling back to the sentinel `-1`
when missing or malformed, with no error in either case. -/
theorem parse_vertex_fields (ld : ObjLoader) (token s0 : String)
    (rest : List String) (v0 : Int)
    (hsp : strSplit token (fun c => c = '/') = s0 :: rest)
    (hp : parseIntTok s0 = some v0) :
    parse_vertex ld token = .ok
      { p := if v0 > 0 then v0 - 1 else v0 + (ld.tmp_data.p.length : Int),
        t := (optField rest ld.tmp_data.uv.length).1,
        n := (optField (optField rest ld.tmp_data.uv.length).2 ld.tmp_data.n.length).1 } := by
  rw [parse_vertex, hsp]
  cases rest with
  | nil => simp only [parse_index, parseI, hp, Except.map, optField]
  | cons s1 rest1 =>
    cases hv1 : parseIntTok s1 with
    | some v1 =>
      cases rest1 with
      | nil => simp only [parse_index, parseI, hp, hv1, Except.map, optField]
      | cons s2 rest2 =>
        cases hv2 : parseIntTok s2 with
        | some v2 => simp only [parse_index, parseI, hp, hv1, hv2, Except.map, optField]
        | none => simp only [parse_index, parseI, hp, hv1, hv2, Except.map, optField]
    | none =>
      cases rest1 with
      | nil => simp only [parse_index, parseI, hp, hv1, Except.map, optField]
      | cons s2 rest2 =>
        cases hv2 : parseIntTok s2 with
        | some v2 => simp only [parse_index, parseI, hp, hv1, hv2, Except.map, optField]
        | none => simp only [parse_index, parseI, hp, hv1, hv2, Except.map, optField]

/-- C2.  Index resolution rule: a face-corner field parsed to value `v`
against pool length `L` resolves to `v - 1` when `v > 0` and to `v + L`
otherwise; in particular `-1` resolves to the index of the most recently
appended entry, `L - 1`. -/
theorem parse_index_resolution (s : String) (rest : List String) (L : Nat) (v : Int)
    (h : parseIntTok s = some v) :
    parse_index (s :: rest) L =
      (.ok (if v > 0 then v - 1 else v + (L : Int)), rest) ∧
    (v = -1 → (if v > 0 then v - 1 else v + (L : Int)) = (L : Int) - 1) := by
  constructor
  · simp only [parse_index, parseI, h, Except.map]
  · intro hm1
    subst hm1
    rw [if_neg (by norm_num)]
    omega

/-- Witness for C2 at `s = "3"`, `L = 5` and `s = "-1"`, `L = 5`. -/
theorem parse_index_resolution_witness :
    (parseIntTok ("3") = some 3 ∧
      (parse_index ["3"] 5 = (.ok (if (3 : Int) > 0 then 3 - 1 else 3 + (5 : Int)), []) ∧
       ((3 : Int) = -1 → (if (3 : Int) > 0 then 3 - 1 else 3 + (5 : Int)) = (5 : Int) - 1))) ∧
    (parseIntTok ("-1") = some (-1) ∧
      (parse_index ["-1"] 5 = (.ok (if (-1 : Int) > 0 then -1 - 1 else -1 + (5 : Int)), []) ∧
       ((-1 : Int) = -1 → (if (-1 : Int) > 0 then -1 - 1 else -1 + (5 : Int)) = (5 : Int) - 1))) :=
  ⟨⟨by decide, parse_index_resolution ("3") [] 5 3 (by decide)⟩,
   ⟨by decide, parse_index_resolution ("-1") [] 5 (-1) (by decide)⟩⟩

/-- A concrete loader state with one raw position, used by witnesses. -/
def ldW : ObjLoader :=
  { tmp_data := { p := [((0 : ℚ), (0 : ℚ), (0 : ℚ))], n := [], uv := [] },
    obj_data := MeshData.empty, faces := [], vertex_map := [], to_world := idT }

/-- C6.  Sentinel for optional fields, error for the mandatory position:
whenever the `t` or `n` field of a corner token is absent, the
corresponding key component resolves to the sentinel `-1` with no error —
covering the `p` form (both absent), the `p/t` form (`n` absent, `t`
resolved normally) and the `p//n` form (`t` missing, `n` resolved
normally); a corner token whose position field does not parse fails with
the `index for position is required` error, and a face line holding such a
corner aborts the load with that error. -/
theorem corner_field_requirements (ld : ObjLoader) (token : String) :
    (∀ s v, strSplit token (fun c => c = '/') = [s] → parseIntTok s = some v →
      parse_vertex ld token = .ok
        { p := if v > 0 then v - 1 else v + (ld.tmp_data.p.length : Int), t := -1, n := -1 }) ∧
    (∀ s v s1 v1, strSplit token (fun c => c = '/') = [s, s1] →
        parseIntTok s = some v → parseIntTok s1 = some v1 →
      parse_vertex ld token = .ok
        { p := if v > 0 then v - 1 else v + (ld.tmp_data.p.length : Int),
          t := if v1 > 0 then v1 - 1 else v1 + (ld.tmp_data.uv.length : Int), n := -1 }) ∧
    (∀ s v s2 v2, strSplit token (fun c => c = '/') = [s, "", s2] →
        parseIntTok s = some v → parseIntTok s2 = some v2 →
      parse_vertex ld token = .ok
        { p := if v > 0 then v - 1 else v + (ld.tmp_data.p.length : Int), t := -1,
          n := if v2 > 0 then v2 - 1 else v2 + (ld.tmp_data.n.length : Int) }) ∧
    (∀ s rest2, strSplit token (fun c => c = '/') = s :: rest2 → parseIntTok s = none →
      parse_vertex ld token =
        .error ("index for position is required: " ++ "malformed scalar")) ∧
    (∀ s rest2, strSplit token (fun c => c = '/') = s :: rest2 → parseIntTok s = none →
      ∀ line rest3, splitWS line = ["f", token] →
        loadLines ld (line :: rest3) =
          .err ("index for position is required: " ++ "malformed scalar")) := by
  have herr : ∀ s rest2, strSplit token (fun c => c = '/') = s :: rest2 →
      parseIntTok s = none →
      parse_vertex ld token =
        .error ("index for position is required: " ++ "malformed scalar") := by
    intro s rest2 hsp hnone
    rw [parse_vertex, hsp]
    simp only [parse_index, parseI, hnone, Except.map]
  refine ⟨?_, ?_, ?_, herr, ?_⟩
  · intro s v hsp hv
    exact parse_vertex_fields ld token s [] v hsp hv
  · intro s v s1 v1 hsp hv hv1
    have hx := parse_vertex_fields ld token s [s1] v hsp hv
    simp only [optField, parse_index, parseI, hv1, Except.map] at hx
    exact hx
  · intro s v s2 v2 hsp hv hv2
    have hemp : parseIntTok ("") = none := rfl
    have hx := parse_vertex_fields ld token s ["", s2] v hsp hv
    simp only [optField, parse_index, parseI, hemp, hv2, Except.map] at hx
    exact hx
  · intro s rest2 hsp hnone line rest3 hline
    rw [loadLines, hline, dispatch]
    rw [if_neg (by decide), if_neg (by decide), if_neg (by decide), if_pos rfl]
    rw [add_face]
    simp only [weldCorners, herr s rest2 hsp hnone]

/-- Witness for C6 over the one-position `ldW`: the `p` token `"3"`, the
`p/t` token `"5/3"`, the `p//n` token `"1//2"`, and the unparsable-position
token `"abc"` aborting the face line `"f abc"`. -/
theorem corner_field_requirements_witness :
    ((strSplit ("3") (fun c => c = '/') = ["3"] ∧ parseIntTok ("3") = some 3) ∧
      parse_vertex ldW ("3") = .ok
        { p := if (3 : Int) > 0 then 3 - 1 else 3 + (ldW.tmp_data.p.length : Int),
          t := -1, n := -1 }) ∧
    ((strSplit ("5/3") (fun c => c = '/') = ["5", "3"] ∧
        parseIntTok ("5") = some 5 ∧ parseIntTok ("3") = some 3) ∧
      parse_vertex ldW ("5/3") = .ok
        { p := if (5 : Int) > 0 then 5 - 1 else 5 + (ldW.tmp_data.p.length : Int),
          t := if (3 : Int) > 0 then 3 - 1 else 3 + (ldW.tmp_data.uv.length : Int),
          n := -1 }) ∧
    ((strSplit ("1//2") (fun c => c = '/') = ["1", "", "2"] ∧
        parseIntTok ("1") = some 1 ∧ parseIntTok ("2") = some 2) ∧
      parse_vertex ldW ("1//2") = .ok
        { p := if (1 : Int) > 0 then 1 - 1 else 1 + (ldW.tmp_data.p.length : Int),
          t := -1,
          n := if (2 : Int) > 0 then 2 - 1 else 2 + (ldW.tmp_data.n.length : Int) }) ∧
    ((strSplit ("abc") (fun c => c = '/') = ["abc"] ∧ parseIntTok ("abc") = none ∧
        splitWS ("f abc") = ["f", "abc"]) ∧
      loadLines ldW ["f abc"] =
        .err ("index for position is required: " ++ "malformed scalar")) :=
  ⟨⟨⟨by decide, by decide⟩,
    (corner_field_requirements ldW ("3")).1 ("3") 3 (by decide) (by decide)⟩,
   ⟨⟨by decide, by decide, by decide⟩,
    (corner_field_requirements ldW ("5/3")).2.1 ("5") 5 ("3") 3
      (by decide) (by decide) (by decide)⟩,
   ⟨⟨by decide, by decide, by decide⟩,
    (corner_field_requirements ldW ("1//2")).2.2.1 ("1") 1 ("2") 2
      (by decide) (by decide) (by decide)⟩,
   ⟨⟨by decide, by decide, by decide⟩,
    (corner_field_requirements ldW ("abc")).2.2.2.2 ("abc") [] (by decide) (by decide)
      ("f abc") [] (by decide)⟩⟩

/-- C10.  Malformed optional fields are silently swallowed: a present `t`
field that fails integer parsing resolves to the sentinel `-1` with no
error, the `n` field still resolving from the remaining tokens as usual;
and a present `n` field that fails integer parsing resolves to the
sentinel with no error, the `t` field resolving as usual — only the
position field can fail the corner. -/
theorem malformed_optional_swallowed (ld : ObjLoader) (token : String) :
    (∀ s0 v s1 rest2, strSplit token (fun c => c = '/') = s0 :: s1 :: rest2 →
      parseIntTok s0 = some v → parseIntTok s1 = none →
      parse_vertex ld token = .ok
        { p := if v > 0 then v - 1 else v + (ld.tmp_data.p.length : Int),
          t := -1,
          n := (optField rest2 ld.tmp_data.n.length).1 }) ∧
    (∀ s0 v s1 s2 rest3, strSplit token (fun c => c = '/') = s0 :: s1 :: s2 :: rest3 →
      parseIntTok s0 = some v → parseIntTok s2 = none →
      parse_vertex ld token = .ok
        { p := if v > 0 then v - 1 else v + (ld.tmp_data.p.length : Int),
          t := (optField (s1 :: s2 :: rest3) ld.tmp_data.uv.length).1,
          n := -1 }) := by
  constructor
  · intro s0 v s1 rest2 hsp hp ht
    have hx := parse_vertex_fields ld token s0 (s1 :: rest2) v hsp hp
    simp only [optField, parse_index, parseI, ht, Except.map] at hx ⊢
    exact hx
  · intro s0 v s1 s2 rest3 hsp hp hn
    have hx := parse_vertex_fields ld token s0 (s1 :: s2 :: rest3) v hsp hp
    cases hv1 : parseIntTok s1 with
    | some v1 =>
      simp only [optField, parse_index, parseI, hv1, hn, Except.map] at hx ⊢
      exact hx
    | none =>
      simp only [optField, parse_index, parseI, hv1, hn, Except.map] at hx ⊢
      exact hx

/-- Witness for C10 over `ldW`: token `"1/abc"` (only `t` fails) and token
`"1/2/xyz"` (only `n` fails). -/
theorem malformed_optional_swallowed_witness :
    ((strSplit ("1/abc") (fun c => c = '/') = ["1", "abc"] ∧
        parseIntTok ("1") = some 1 ∧ parseIntTok ("abc") = none) ∧
      parse_vertex ldW ("1/abc") = .ok
        { p := if (1 : Int) > 0 then 1 - 1 else 1 + (ldW.tmp_data.p.length : Int),
          t := -1, n := (optField [] ldW.tmp_data.n.length).1 }) ∧
    ((strSplit ("1/2/xyz") (fun c => c = '/') = ["1", "2", "xyz"] ∧
        parseIntTok ("1") = some 1 ∧ parseIntTok ("xyz") = none) ∧
      parse_vertex ldW ("1/2/xyz") = .ok
        { p := if (1 : Int) > 0 then 1 - 1 else 1 + (ldW.tmp_data.p.length : Int),
          t := (optField ["2", "xyz"] ldW.tmp_data.uv.length).1, n := -1 }) :=
  ⟨⟨⟨by decide, by decide, by decide⟩,
    (malformed_optional_swallowed ldW ("1/abc")).1 ("1") 1 ("abc") []
      (by decide) (by decide) (by decide)⟩,
   ⟨⟨by decide, by decide, by decide⟩,
    (malformed_optional_swallowed ldW ("1/2/xyz")).2 ("1") 1 ("2") ("xyz") []
      (by decide) (by decide) (by decide)⟩⟩

/-- The corner loop collects exactly one welded index per corner token. -/
theorem weldCorners_length (tokens : List String) (ld : ObjLoader)
    (v : List Int) (ld1 : ObjLoader)
    (h : weldCorners ld tokens = .ok (v, ld1)) : v.length = tokens.length := by
  induction tokens generalizing ld v ld1 with
  | nil =>
    rw [weldCorners] at h
    simp only [Outcome.ok.injEq, Prod.mk.injEq] at h
    rw [← h.1]
    rfl
  | cons st rest ih =>
    rw [weldCorners] at h
    cases hpv : parse_vertex ld st with
    | error e =>
      simp only [hpv] at h
      exact absurd h (by simp)
    | ok vk =>
      simp only [hpv] at h
      cases hget : hmGet ld.vertex_map vk with
      | some i =>
        simp only [hget] at h
        cases hw : weldCorners ld rest with
        | err e => simp only [hw] at h; exact absurd h (by simp)
        | panicked => simp only [hw] at h; exact absurd h (by simp)
        | ok x =>
          obtain ⟨is0, ld2⟩ := x
          simp only [hw, Outcome.ok.injEq, Prod.mk.injEq] at h
          rw [← h.1]
          simp [ih ld is0 ld2 hw]
      | none =>
        simp only [hget] at h
        cases hav : add_vertex ld vk with
        | none => simp only [hav] at h; exact absurd h (by simp)
        | some pr =>
          obtain ⟨i, ldn⟩ := pr
          simp only [hav] at h
          cases hw : weldCorners ldn rest with
          | err e => simp only [hw] at h; exact absurd h (by simp)
          | panicked => simp only [hw] at h; exact absurd h (by simp)
          | ok x =>
            obtain ⟨is0, ld2⟩ := x
            simp only [hw, Outcome.ok.injEq, Prod.mk.injEq] at h
            rw [← h.1]
            simp [ih ldn is0 ld2 hw]

/-- C3.  Triangulation policy: a face whose welded corner list is
`[a, b, c]` appends exactly the triangle `(a, b, c)`; one whose list is
`[a, b, c, d]` appends exactly `(a, b, c)` then `(a, c, d)` — the fan pivot
is always the first corner. -/
theorem triangulation_policy (ld : ObjLoader) (tokens : List String)
    (v : List Int) (ld1 : ObjLoader)
    (hw : weldCorners ld tokens = .ok (v, ld1)) :
    (∀ a b c, v = [a, b, c] →
      add_face ld tokens = .ok { ld1 with faces := ld1.faces ++ [(a, b, c)] }) ∧
    (∀ a b c d, v = [a, b, c, d] →
      add_face ld tokens = .ok { ld1 with faces := ld1.faces ++ [(a, b, c), (a, c, d)] }) := by
  constructor
  · intro a b c hv
    subst hv
    rw [add_face]
    simp only [hw]
  · intro a b c d hv
    subst hv
    rw [add_face]
    simp only [hw]

/-- The loader state after welding the first corner of `ldW`. -/
def ldW1 : ObjLoader :=
  { tmp_data := { p := [((0 : ℚ), (0 : ℚ), (0 : ℚ))], n := [], uv := [] },
    obj_data := { p := [((0 : ℚ), (0 : ℚ), (0 : ℚ))], n := [], uv := [] },
    faces := [], vertex_map := [({ p := 0, t := -1, n := -1 }, 0)], to_world := idT }

/-- Witness for C3: the quad face `1 1 1 1` over `ldW` welds to
`[0, 0, 0, 0]` and the two emitted fan triangles follow. -/
theorem triangulation_policy_witness :
    (weldCorners ldW ["1", "1", "1", "1"] = .ok ([0, 0, 0, 0], ldW1)) ∧
    ((∀ a b c, ([0, 0, 0, 0] : List Int) = [a, b, c] →
      add_face ldW ["1", "1", "1", "1"] = .ok { ldW1 with faces := ldW1.faces ++ [(a, b, c)] }) ∧
    (∀ a b c d, ([0, 0, 0, 0] : List Int) = [a, b, c, d] →
      add_face ldW ["1", "1", "1", "1"] =
        .ok { ldW1 with faces := ldW1.faces ++ [(a, b, c), (a, c, d)] })) :=
  ⟨by rfl, triangulation_policy ldW ["1", "1", "1", "1"] [0, 0, 0, 0] ldW1 (by rfl)⟩

/-- C5.  Fail-fast on unsupported arity: when a face line has neither 3 nor
4 corner tokens (and the corners themselves resolve), `add_face` returns
the unsupported-arity error, and the whole load of any line list starting
with that face line fails with it — no triangles are retained. -/
theorem face_arity_error (ld : ObjLoader) (tokens : List String)
    (v : List Int) (ld1 : ObjLoader)
    (hw : weldCorners ld tokens = .ok (v, ld1))
    (h3 : tokens.length ≠ 3) (h4 : tokens.length ≠ 4) :
    add_face ld tokens = .err ("unexpected number of vertices") ∧
    (∀ line rest2, splitWS line = "f" :: tokens →
      loadLines ld (line :: rest2) = .err ("unexpected number of vertices")) := by
  have hlen := weldCorners_length tokens ld v ld1 hw
  have hface : add_face ld tokens = .err ("unexpected number of vertices") := by
    rw [add_face]
    simp only [hw]
    rcases v with _ | ⟨a, _ | ⟨b, _ | ⟨c, _ | ⟨d, _ | ⟨e5, vrest⟩⟩⟩⟩⟩
    · rfl
    · rfl
    · rfl
    · exact absurd (by simpa using hlen.symm) h3
    · exact absurd (by simpa using hlen.symm) h4
    · rfl
  refine ⟨hface, ?_⟩
  intro line rest2 hsplit
  rw [loadLines, hsplit, dispatch]
  rw [if_neg (by decide), if_neg (by decide), if_neg (by decide), if_pos rfl]
  simp only [hface]

/-- Witness for C5: the 2-corner face `1 1` over `ldW` welds but then fails
with the arity error, and the face line `"f 1 1"` aborts the load. -/
theorem face_arity_error_witness :
    (weldCorners ldW ["1", "1"] = .ok ([0, 0], ldW1) ∧
      (["1", "1"] : List String).length ≠ 3 ∧ (["1", "1"] : List String).length ≠ 4) ∧
    (add_face ldW ["1", "1"] = .err ("unexpected number of vertices") ∧
    (∀ line rest2, splitWS line = "f" :: ["1", "1"] →
      loadLines ldW (line :: rest2) = .err ("unexpected number of vertices"))) :=
  ⟨⟨by rfl, by decide, by decide⟩,
   face_arity_error ldW ["1", "1"] [0, 0] ldW1 (by rfl) (by decide) (by decide)⟩

/-- C1.  Welding correctness over one load pass (from any welding-table
state satisfying the invariant, so in particular at every point of the
pass): any two processed face-corner references with equal resolved
`(p, t, n)` keys collect the same welded index; the final table size is the
number of distinct keys seen (initial table keys plus processed corners);
the table grows append-only; and its values are, in order, `0, 1, 2, …`, so
each newly inserted key received the table size at its insertion time as
its welded index.  Every processed `(key, index)` pair is recorded in the
final table. -/
theorem welding_correctness (ld : ObjLoader) (lines : List String)
    (out : MeshData × List Face) (ldf : ObjLoader) (tr : List (Vertex × Int))
    (hinv : WeldInv ld.vertex_map)
    (hpl : ld.obj_data.p.length = ld.vertex_map.length)
    (h : loadLinesT ld lines = .ok (out, ldf, tr)) :
    (∀ p ∈ tr, ∀ q ∈ tr, p.1 = q.1 → p.2 = q.2) ∧
    ldf.vertex_map.length =
      ((ld.vertex_map.map Prod.fst) ++ tr.map Prod.fst).toFinset.card ∧
    (∃ ext, ldf.vertex_map = ld.vertex_map ++ ext) ∧
    ldf.vertex_map.map Prod.snd =
      (List.range ldf.vertex_map.length).map (fun j : Nat => (j : Int)) ∧
    (∀ pr ∈ tr, hmGet ldf.vertex_map pr.1 = some pr.2) := by
  obtain ⟨hout, hext, hinv2, hpl2, hlk, hfs, hrg⟩ :=
    loadLinesT_inv lines ld out ldf tr hinv hpl h
  refine ⟨?_, ?_, hext, hinv2.2, hlk⟩
  · intro p hp q hq hpq
    have hone := hlk p hp
    have htwo := hlk q hq
    rw [hpq, htwo] at hone
    injection hone with hone
    exact hone.symm
  · have hnd : (ldf.vertex_map.map Prod.fst).Nodup := hinv2.1
    calc ldf.vertex_map.length
        = (ldf.vertex_map.map Prod.fst).length := by simp
      _ = (ldf.vertex_map.map Prod.fst).toFinset.card :=
          (List.toFinset_card_of_nodup hnd).symm
      _ = ((ld.vertex_map.map Prod.fst) ++ tr.map Prod.fst).toFinset.card := by
          rw [List.toFinset_append, hfs]

/-- The full loader state after the two-line load used as the C1 witness. -/
def ldfW : ObjLoader :=
  { tmp_data := { p := [((0 : ℚ), (0 : ℚ), (0 : ℚ))], n := [], uv := [] },
    obj_data := { p := [((0 : ℚ), (0 : ℚ), (0 : ℚ))], n := [], uv := [] },
    faces := [(0, 0, 0)],
    vertex_map := [({ p := 0, t := -1, n := -1 }, 0)], to_world := idT }

/-- Witness for C1: the two-line input `v 0 0 0` / `f 1 1 1` from the fresh
state. -/
theorem welding_correctness_witness :
    (WeldInv (initLoader idT).vertex_map ∧
      (initLoader idT).obj_data.p.length = (initLoader idT).vertex_map.length ∧
      loadLinesT (initLoader idT) ["v 0 0 0", "f 1 1 1"] =
        .ok (({ p := [((0 : ℚ), (0 : ℚ), (0 : ℚ))], n := [], uv := [] }, [((0 : Int), 0, 0)]),
          ldfW,
          [({ p := 0, t := -1, n := -1 }, 0), ({ p := 0, t := -1, n := -1 }, 0),
           ({ p := 0, t := -1, n := -1 }, 0)])) ∧
    ((∀ p ∈ [(({ p := 0, t := -1, n := -1 } : Vertex), (0 : Int)),
              ({ p := 0, t := -1, n := -1 }, 0), ({ p := 0, t := -1, n := -1 }, 0)],
        ∀ q ∈ [(({ p := 0, t := -1, n := -1 } : Vertex), (0 : Int)),
              ({ p := 0, t := -1, n := -1 }, 0), ({ p := 0, t := -1, n := -1 }, 0)],
        p.1 = q.1 → p.2 = q.2) ∧
      ldfW.vertex_map.length =
        (((initLoader idT).vertex_map.map Prod.fst) ++
          ([(({ p := 0, t := -1, n := -1 } : Vertex), (0 : Int)),
            ({ p := 0, t := -1, n := -1 }, 0),
            ({ p := 0, t := -1, n := -1 }, 0)].map Prod.fst)).toFinset.card ∧
      (∃ ext, ldfW.vertex_map = (initLoader idT).vertex_map ++ ext) ∧
      ldfW.vertex_map.map Prod.snd =
        (List.range ldfW.vertex_map.length).map (fun j : Nat => (j : Int)) ∧
      (∀ pr ∈ [(({ p := 0, t := -1, n := -1 } : Vertex), (0 : Int)),
              ({ p := 0, t := -1, n := -1 }, 0), ({ p := 0, t := -1, n := -1 }, 0)],
        hmGet ldfW.vertex_map pr.1 = some pr.2)) :=
  ⟨⟨WeldInv_nil, rfl, by rfl⟩,
   welding_correctness (initLoader idT) ["v 0 0 0", "f 1 1 1"] _ ldfW _
     WeldInv_nil rfl (by rfl)⟩

/-- C4.  Index range: on a successful load, every emitted triangle's three
welded indices are nonnegative and strictly below the length of the welded
position output. -/
theorem triangle_index_range (tw : T) (lines : List String) (md : MeshData)
    (faces : List Face) (h : load tw lines = .ok (md, faces)) :
    ∀ f ∈ faces, FaceInRange f md.p.length := by
  have he := loadT_erase tw lines
  rw [h] at he
  cases hl : loadT tw lines with
  | err e => rw [hl] at he; exact absurd he (by simp [Outcome.map])
  | panicked => rw [hl] at he; exact absurd he (by simp [Outcome.map])
  | ok x =>
    obtain ⟨out, ldf, tr⟩ := x
    rw [hl] at he
    simp only [Outcome.map, Outcome.ok.injEq] at he
    rw [loadT] at hl
    obtain ⟨hout, hext, hinv2, hpl2, hlk, hfs, hrg⟩ :=
      loadLinesT_inv lines (initLoader tw) out ldf tr WeldInv_nil rfl hl
    have hfaces : ∀ f ∈ ldf.faces, FaceInRange f ldf.vertex_map.length :=
      hrg (by intro f hf; exact absurd hf (by simp [initLoader]))
    rw [hout] at he
    obtain ⟨hmd, hfc⟩ := Prod.mk.injEq .. ▸ he
    intro f hf
    rw [hfc] at hf
    rw [hmd, hpl2]
    exact hfaces f hf

/-- Witness for C4: the two-line load `v 0 0 0` / `f 1 1 1`. -/
theorem triangle_index_range_witness :
    (load idT ["v 0 0 0", "f 1 1 1"] =
      .ok ({ p := [((0 : ℚ), (0 : ℚ), (0 : ℚ))], n := [], uv := [] }, [((0 : Int), 0, 0)])) ∧
    (∀ f ∈ [((0 : Int), (0 : Int), (0 : Int))],
      FaceInRange f
        ({ p := [((0 : ℚ), (0 : ℚ), (0 : ℚ))], n := [], uv := [] } : MeshData).p.length) :=
  ⟨by rfl,
   triangle_index_range idT ["v 0 0 0", "f 1 1 1"]
     { p := [((0 : ℚ), (0 : ℚ), (0 : ℚ))], n := [], uv := [] } [(0, 0, 0)] (by rfl)⟩

/-- C7.  Out-of-range resolved indices are not surfaced as error values: a
face corner whose position field is the literal `0` (resolving to the pool
length `L`) — or a positive index beyond the pool — drives the unchecked
indexing in `add_vertex` out of range, so the load panics instead of
returning an error to the caller. -/
theorem zero_index_panic :
    load idT ["v 0 0 0", "f 0 0 0"] = .panicked ∧
    load idT ["v 0 0 0", "f 2 1 1"] = .panicked :=
  ⟨by rfl, by rfl⟩

/-- C9.  Round-trip sample: the five-line quad input with the identity
transform yields exactly the four welded positions in file order and the
two fan triangles `[0,1,2]`, `[0,2,3]`. -/
theorem round_trip_sample :
    load idT ["v 0 0 0", "v 1 0 0", "v 1 1 0", "v 0 1 0", "f 1 2 3 4"] =
      .ok ({ p := [((0 : ℚ), (0 : ℚ), (0 : ℚ)), ((1 : ℚ), (0 : ℚ), (0 : ℚ)),
                   ((1 : ℚ), (1 : ℚ), (0 : ℚ)), ((0 : ℚ), (1 : ℚ), (0 : ℚ))],
             n := [], uv := [] },
            [((0 : Int), 1, 2), (0, 2, 3)]) := by
  rfl

/-- C8.  Relative-index equivalence: with `N > 0` positions in the raw pool,
a corner whose position field parses to `-1` resolves to the same raw index
`N - 1` as one parsing to the positive reference `N`, and welding the two
corners in one face collects the same welded index for both. -/
theorem relative_index_equivalence (ld : ObjLoader) (t1 t2 a b : String) (N : Nat)
    (hN : ld.tmp_data.p.length = N) (hpos : 0 < N) (hN64 : N < 2 ^ 64)
    (h1 : strSplit t1 (fun c => c = '/') = [a]) (ha : parseIntTok a = some (-1))
    (h2 : strSplit t2 (fun c => c = '/') = [b]) (hb : parseIntTok b = some (N : Int)) :
    parse_vertex ld t1 = .ok { p := (N : Int) - 1, t := -1, n := -1 } ∧
    parse_vertex ld t2 = .ok { p := (N : Int) - 1, t := -1, n := -1 } ∧
    (∃ i ld2, weldCorners ld [t1, t2] = .ok ([i, i], ld2)) := by
  have hNi : (0 : Int) < (N : Int) := by exact_mod_cast hpos
  have e1 : (if (-1 : Int) > 0 then (-1 : Int) - 1 else -1 + (N : Int)) = (N : Int) - 1 := by
    rw [if_neg (by norm_num)]
    omega
  have e2 : (if ((N : Int)) > 0 then (N : Int) - 1 else (N : Int) + (N : Int)) = (N : Int) - 1 := by
    rw [if_pos hNi]
  have hv1 : parse_vertex ld t1 = .ok { p := (N : Int) - 1, t := -1, n := -1 } := by
    have hx := parse_vertex_single ld t1 a (-1) h1 ha
    rw [hN, e1] at hx
    exact hx
  have hv2gen : ∀ ld3 : ObjLoader, ld3.tmp_data.p.length = N →
      parse_vertex ld3 t2 = .ok { p := (N : Int) - 1, t := -1, n := -1 } := by
    intro ld3 hN3
    have hx := parse_vertex_single ld3 t2 b (N : Int) h2 hb
    rw [hN3, e2] at hx
    exact hx
  have hv2 := hv2gen ld hN
  refine ⟨hv1, hv2, ?_⟩
  cases hget : hmGet ld.vertex_map { p := (N : Int) - 1, t := -1, n := -1 } with
  | some i =>
    refine ⟨i, ld, ?_⟩
    simp only [weldCorners, hv1, hv2, hget]
  | none =>
    have hidx : asUsize ((N : Int) - 1) = N - 1 := by
      rw [asUsize, Int.emod_eq_of_lt (by omega) (by norm_num; omega)]
      omega
    have hlt : N - 1 < ld.tmp_data.p.length := by omega
    have hgetp : ld.tmp_data.p.get? (asUsize ((N : Int) - 1)) =
        some (ld.tmp_data.p.get ⟨N - 1, hlt⟩) := by
      rw [hidx]
      exact List.get?_eq_get hlt
    have hav : add_vertex ld { p := (N : Int) - 1, t := -1, n := -1 } =
        some ((ld.vertex_map.length : Int),
          { ld with
            obj_data := { ld.obj_data with
              p := ld.obj_data.p ++ [ld.tmp_data.p.get ⟨N - 1, hlt⟩] },
            vertex_map := hmInsert ld.vertex_map { p := (N : Int) - 1, t := -1, n := -1 }
              (ld.vertex_map.length : Int) }) := by
      rw [add_vertex, hgetp]
      dsimp only
      rw [if_neg (not_not_intro rfl)]
      dsimp only
      rw [if_neg (not_not_intro rfl)]
    have hv2b := hv2gen
      { ld with
        obj_data := { ld.obj_data with
          p := ld.obj_data.p ++ [ld.tmp_data.p.get ⟨N - 1, hlt⟩] },
        vertex_map := hmInsert ld.vertex_map { p := (N : Int) - 1, t := -1, n := -1 }
          (ld.vertex_map.length : Int) } hN
    have hgm : hmGet (hmInsert ld.vertex_map { p := (N : Int) - 1, t := -1, n := -1 }
        (ld.vertex_map.length : Int)) { p := (N : Int) - 1, t := -1, n := -1 } =
        some (ld.vertex_map.length : Int) := by
      rw [hmInsert_of_none _ _ _ hget, hmGet_append_of_none _ _ _ hget]
      simp [hmGet]
    refine ⟨(ld.vertex_map.length : Int),
      { ld with
        obj_data := { ld.obj_data with
          p := ld.obj_data.p ++ [ld.tmp_data.p.get ⟨N - 1, hlt⟩] },
        vertex_map := hmInsert ld.vertex_map { p := (N : Int) - 1, t := -1, n := -1 }
          (ld.vertex_map.length : Int) }, ?_⟩
    simp only [weldCorners, hv1, hget, hav, hv2b, hgm]

/-- Witness for C8 over `ldW` (one position): corner tokens `"-1"` and
`"1"`. -/
theorem relative_index_equivalence_witness :
    (ldW.tmp_data.p.length = 1 ∧ 0 < 1 ∧ 1 < 2 ^ 64 ∧
      strSplit ("-1") (fun c => c = '/') = ["-1"] ∧ parseIntTok ("-1") = some (-1) ∧
      strSplit ("1") (fun c => c = '/') = ["1"] ∧ parseIntTok ("1") = some ((1 : Nat) : Int)) ∧
    (parse_vertex ldW ("-1") = .ok { p := ((1 : Nat) : Int) - 1, t := -1, n := -1 } ∧
     parse_vertex ldW ("1") = .ok { p := ((1 : Nat) : Int) - 1, t := -1, n := -1 } ∧
     (∃ i ld2, weldCorners ldW ["-1", "1"] = .ok ([i, i], ld2))) :=
  ⟨⟨rfl, by decide, by decide, by decide, by decide, by decide, by decide⟩,
   relative_index_equivalence ldW ("-1") ("1") ("-1") ("1") 1 rfl (by decide) (by decide)
     (by decide) (by decide) (by decide) (by decide)⟩
